import Mathlib

/-!
Shallow embedding of the Tip5 hash library (`b_field_element.rs`, `digest.rs`,
`sponge.rs`, `lib.rs`) and proofs about it.

Machine integers are modelled as `Nat` with explicit reduction modulo `2^64`
(respectively `2^128`) exactly where the Rust code computes in `u64`
(respectively `u128`).  Wrapping two's-complement subtraction `a.wrapping_sub b`
on `u64` is modelled as `(a + (2^64 - b % 2^64)) % 2^64`.
-/

set_option maxRecDepth 8000

/-- Truncation to a `u64` value. -/
def wrap64 (n : Nat) : Nat := n % 2^64

/-- Wrapping `u64` subtraction (two's complement). -/
def wsub64 (a b : Nat) : Nat := (a + (2^64 - b % 2^64)) % 2^64

/-- `BFieldElement(u64)`: base field element of ℤ_{2^64 - 2^32 + 1}, stored in
Montgomery representation.  The single `u64` word is modelled as a `Nat`;
bounds (`raw < 2^64`) appear as hypotheses of the theorems. -/
structure BFieldElement where
  raw : Nat
deriving DecidableEq

namespace BFieldElement

/-- The base field's prime, `2^64 - 2^32 + 1` (`BFieldElement::P`). -/
def P : Nat := 0xffffffff00000001

/-- `2^128 mod P`, used for conversion into Montgomery representation
(`BFieldElement::R2`). -/
def R2 : Nat := 0xfffffffe00000001

/-- The steps of `montyred` computing the low-word correction factor `b`
(lines `let (a, e) = xl.overflowing_add(xl << 32); let b = a.wrapping_sub(a >> 32).wrapping_sub(e as u64)`
of `BFieldElement::montyred`), split out so that it can be characterised on
its own. -/
def montyred_b (xl : Nat) : Nat :=
  let s := xl + wrap64 (xl * 2^32)
  let a := s % 2^64
  let e := s / 2^64
  wrap64 (wrap64 (a + (2^64 - a / 2^32)) + (2^64 - e))

/-- Montgomery reduction (`BFieldElement::montyred`).  `x` is a `u128`;
`(r, c) = xh.overflowing_sub(b)` and the final
`r.wrapping_sub((1 + !Self::P) * c as u64)` are modelled with the wrapping
helpers; the borrow/carry bits `e` and `c` are `0`/`1` valued naturals. -/
def montyred (x : Nat) : Nat :=
  let xl := x % 2^64
  let xh := x / 2^64 % 2^64
  let b := montyred_b xl
  let r := (xh + (2^64 - b)) % 2^64
  let c := if xh < b then 1 else 0
  wrap64 (r + (2^64 - wrap64 ((1 + (2^64 - 1 - P)) * c)))

/-- `BFieldElement::new`: conversion into Montgomery representation via
`montyred((value as u128) * (R2 as u128))`. -/
def new (v : Nat) : BFieldElement := ⟨montyred (v * R2)⟩

/-- `BFieldElement::canonical_representation`: `montyred(self.0 as u128)`. -/
def canonical_representation (x : BFieldElement) : Nat := montyred x.raw

/-- `BFieldElement::value`. -/
def value (x : BFieldElement) : Nat := canonical_representation x

/-- `<BFieldElement as ConstZero>::ZERO = Self::new(0)`. -/
def zero : BFieldElement := new 0

/-- `<BFieldElement as ConstOne>::ONE = Self::new(1)`. -/
def one : BFieldElement := new 1

/-- `impl Add for BFieldElement`: computes `a + b` as `a - (p - b)` with a
conditional wrap-around correction. -/
def add (a b : BFieldElement) : BFieldElement :=
  let d := wsub64 P b.raw
  let x1 := wsub64 a.raw d
  if a.raw < d then ⟨wrap64 (x1 + P)⟩ else ⟨x1⟩

/-- `impl Sub for BFieldElement`:
`let (x1, c1) = self.0.overflowing_sub(rhs.0); Self(x1.wrapping_sub((1 + !Self::P) * c1 as u64))`. -/
def sub (a b : BFieldElement) : BFieldElement :=
  let x1 := wsub64 a.raw b.raw
  let c := if a.raw < b.raw then 1 else 0
  ⟨wsub64 x1 (wrap64 ((1 + (2^64 - 1 - P)) * c))⟩

/-- `impl Mul for BFieldElement`: `Self(Self::montyred((self.0 as u128) * (rhs.0 as u128)))`. -/
def mul (a b : BFieldElement) : BFieldElement := ⟨montyred (a.raw * b.raw)⟩

/-- `impl Neg for BFieldElement`: `Self::zero() - self`. -/
def neg (a : BFieldElement) : BFieldElement := sub zero a

/-- `BFieldElement::square`: `self * self`. -/
def square (x : BFieldElement) : BFieldElement := mul x x

/-- `BFieldElement::raw_bytes`: the little-endian bytes of the raw Montgomery
word (`self.0.to_le_bytes()`), as a list of 8 byte values. -/
def raw_bytes (x : BFieldElement) : List Nat :=
  (List.range 8).map fun j => x.raw / 2^(8*j) % 256

/-- `BFieldElement::raw_u64`: the raw Montgomery word. -/
def raw_u64 (x : BFieldElement) : Nat := x.raw

/-- `BFieldElement::from_raw_bytes`: `u64::from_le_bytes` of 8 bytes, taken
as a raw Montgomery word. -/
def from_raw_bytes (bytes : List Nat) : BFieldElement :=
  ⟨bytes.foldr (fun bj acc => bj + 256 * acc) 0⟩

/-- `BFieldElement::from_raw_u64`. -/
def from_raw_u64 (e : Nat) : BFieldElement := ⟨e⟩

/-- The local `const fn exp(base, exponent)` inside `BFieldElement::inverse`:
`exponent` successive Montgomery squarings of `base`. -/
def exp (base : BFieldElement) : Nat → BFieldElement
  | 0 => base
  | n + 1 => exp ⟨montyred (base.raw * base.raw)⟩ n

/-- The addition-chain body of `BFieldElement::inverse` (everything after the
`assert_ne!`), computing `x^(p-2)`. -/
def inverse_chain (x : BFieldElement) : BFieldElement :=
  let bin_2_ones := mul (square x) x
  let bin_3_ones := mul (square bin_2_ones) x
  let bin_6_ones := mul (exp bin_3_ones 3) bin_3_ones
  let bin_12_ones := mul (exp bin_6_ones 6) bin_6_ones
  let bin_24_ones := mul (exp bin_12_ones 12) bin_12_ones
  let bin_30_ones := mul (exp bin_24_ones 6) bin_6_ones
  let bin_31_ones := mul (square bin_30_ones) x
  let bin_31_ones_1_zero := square bin_31_ones
  let bin_32_ones := mul (square bin_31_ones) x
  mul (exp bin_31_ones_1_zero 32) bin_32_ones

/-- `BFieldElement::inverse`.  The `assert_ne!(x, Self::zero(), ...)` panic on
the zero element is modelled as `none`. -/
def inverse (x : BFieldElement) : Option BFieldElement :=
  if x = zero then none else some (inverse_chain x)

/-- `impl Div for BFieldElement`: `other.inverse() * self`; the panic of
`inverse` on zero propagates. -/
def div (a other : BFieldElement) : Option BFieldElement :=
  (inverse other).map fun i => mul i a

end BFieldElement

/-- Binary modular exponentiation, structurally recursive on a fuel
parameter (used only to state and certify Fermat-type facts about the prime
`P`; this is a proof-side tool, not part of the embedded program). -/
def powModAux : Nat → Nat → Nat → Nat → Nat
  | 0, _, _, m => 1 % m
  | fuel + 1, b, e, m =>
    if e = 0 then 1 % m
    else
      let r := powModAux fuel (b * b % m) (e / 2) m
      if e % 2 = 1 then r * (b % m) % m else r

/-- `powMod b e m = b^e % m` for any exponent below `2^128`. -/
def powMod (b e m : Nat) : Nat := powModAux 128 b e m

/-- `Digest(pub [BFieldElement; Digest::LEN])`, the 5-element hash digest
(`digest.rs`).  The fixed-arity array is modelled as a list; theorems carry
the length `5` as a hypothesis. -/
structure Digest where
  digest_elements : List BFieldElement
deriving DecidableEq

namespace Digest

/-- `Digest::LEN`. -/
def LEN : Nat := 5

/-- `Digest::new`. -/
def new (elements : List BFieldElement) : Digest := ⟨elements⟩

/-- `Digest::values`. -/
def values (d : Digest) : List BFieldElement := d.digest_elements

end Digest

/-- `sponge.rs`: the hasher `Domain`. -/
inductive Domain where
  | VariableLength : Domain
  | FixedLength : Domain
deriving DecidableEq

def STATE_SIZE : Nat := 16
def NUM_SPLIT_AND_LOOKUP : Nat := 4
def RATE : Nat := 10
def NUM_ROUNDS : Nat := 7

/-- The 256-entry lookup table of the TIP-5 permutation (`LOOKUP_TABLE`). -/
def LOOKUP_TABLE : List Nat := [
  0, 7, 26, 63, 124, 215, 85, 254, 214, 228, 45, 185, 140, 173, 33, 240, 29, 177, 176, 32, 8,
  110, 87, 202, 204, 99, 150, 106, 230, 14, 235, 128, 213, 239, 212, 138, 23, 130, 208, 6, 44,
  71, 93, 116, 146, 189, 251, 81, 199, 97, 38, 28, 73, 179, 95, 84, 152, 48, 35, 119, 49, 88,
  242, 3, 148, 169, 72, 120, 62, 161, 166, 83, 175, 191, 137, 19, 100, 129, 112, 55, 221, 102,
  218, 61, 151, 237, 68, 164, 17, 147, 46, 234, 203, 216, 22, 141, 65, 57, 123, 12, 244, 54, 219,
  231, 96, 77, 180, 154, 5, 253, 133, 165, 98, 195, 205, 134, 245, 30, 9, 188, 59, 142, 186, 197,
  181, 144, 92, 31, 224, 163, 111, 74, 58, 69, 113, 196, 67, 246, 225, 10, 121, 50, 60, 157, 90,
  122, 2, 250, 101, 75, 178, 159, 24, 36, 201, 11, 243, 132, 198, 190, 114, 233, 39, 52, 21, 209,
  108, 238, 91, 187, 18, 104, 194, 37, 153, 34, 200, 143, 126, 155, 236, 118, 64, 80, 172, 89,
  94, 193, 135, 183, 86, 107, 252, 13, 167, 206, 136, 220, 207, 103, 171, 160, 76, 182, 227, 217,
  158, 56, 174, 4, 66, 109, 139, 162, 184, 211, 249, 47, 125, 232, 117, 43, 16, 42, 127, 20, 241,
  25, 149, 105, 156, 51, 53, 168, 145, 247, 223, 79, 78, 226, 15, 222, 82, 115, 70, 210, 27, 41,
  1, 170, 40, 131, 192, 229, 248, 255]

/-- The 112 round constants (`ROUND_CONSTANTS`), each given in the source as
`BFieldElement::new` of the listed integer. -/
def ROUND_CONSTANTS : List BFieldElement := [
  1332676891236936200, 16607633045354064669, 12746538998793080786, 15240351333789289931,
  10333439796058208418, 986873372968378050, 153505017314310505, 703086547770691416,
  8522628845961587962, 1727254290898686320, 199492491401196126, 2969174933639985366,
  1607536590362293391, 16971515075282501568, 15401316942841283351, 14178982151025681389,
  2916963588744282587, 5474267501391258599, 5350367839445462659, 7436373192934779388,
  12563531800071493891, 12265318129758141428, 6524649031155262053, 1388069597090660214,
  3049665785814990091, 5225141380721656276, 10399487208361035835, 6576713996114457203,
  12913805829885867278, 10299910245954679423, 12980779960345402499, 593670858850716490,
  12184128243723146967, 1315341360419235257, 9107195871057030023, 4354141752578294067,
  8824457881527486794, 14811586928506712910, 7768837314956434138, 2807636171572954860,
  9487703495117094125, 13452575580428891895, 14689488045617615844, 16144091782672017853,
  15471922440568867245, 17295382518415944107, 15054306047726632486, 5708955503115886019,
  9596017237020520842, 16520851172964236909, 8513472793890943175, 8503326067026609602,
  9402483918549940854, 8614816312698982446, 7744830563717871780, 14419404818700162041,
  8090742384565069824, 15547662568163517559, 17314710073626307254, 10008393716631058961,
  14480243402290327574, 13569194973291808551, 10573516815088946209, 15120483436559336219,
  3515151310595301563, 1095382462248757907, 5323307938514209350, 14204542692543834582,
  12448773944668684656, 13967843398310696452, 14838288394107326806, 13718313940616442191,
  15032565440414177483, 13769903572116157488, 17074377440395071208, 16931086385239297738,
  8723550055169003617, 590842605971518043, 16642348030861036090, 10708719298241282592,
  12766914315707517909, 11780889552403245587, 113183285481780712, 9019899125655375514,
  3300264967390964820, 12802381622653377935, 891063765000023873, 15939045541699412539,
  3240223189948727743, 4087221142360949772, 10980466041788253952, 18199914337033135244,
  7168108392363190150, 16860278046098150740, 13088202265571714855, 4712275036097525581,
  16338034078141228133, 1455012125527134274, 5024057780895012002, 9289161311673217186,
  9401110072402537104, 11919498251456187748, 4173156070774045271, 15647643457869530627,
  15642078237964257476, 1405048341078324037, 3059193199283698832, 1605012781983592984,
  7134876918849821827, 5796994175286958720, 7251651436095127661, 4565856221886323991
  ].map BFieldElement.new

/-- The defining, first column of the circulant MDS matrix
(`MDS_MATRIX_FIRST_COLUMN`); all entries are nonnegative. -/
def MDS_MATRIX_FIRST_COLUMN : List Nat := [
  61402, 1108, 28750, 33823, 7454, 43244, 53865, 12034, 56951, 27521, 41351, 40901, 12021, 59689,
  26798, 17845]

/-- Modelled from the spec: the file `mds.rs` (module `mds`, function
`mds::generated_function`) is not among the available sources; only its
caller `Tip5::mds_generated` is.  Per the spec (§4.4, linear diffusion
layer, and §9 diffusion-layer fast-path), the fast path computes the
circulant matrix-vector product with first column `MDS_MATRIX_FIRST_COLUMN`
(row `r`, column `c` entry = the integer at index `(r - c) mod 16`); the
caller divides the low result by `2^4` and shifts the high result by `28`
(not `32`) bits, so `generated_function` returns the product scaled by `16`.
Inputs are 32-bit halves, so the scaled integer dot products stay far below
`2^64` and plain natural-number arithmetic models the `u64` computation. -/
def generated_function (input : List Nat) : List Nat :=
  (List.range STATE_SIZE).map fun r =>
    16 * ∑ c ∈ Finset.range STATE_SIZE,
      MDS_MATRIX_FIRST_COLUMN.getD ((r + STATE_SIZE - c) % STATE_SIZE) 0 * input.getD c 0

/-- `lib.rs`: `pub struct Tip5 { pub state: [BFieldElement; STATE_SIZE] }`. -/
structure Tip5 where
  state : List BFieldElement
deriving DecidableEq

namespace Tip5

/-- `Tip5::new(domain)`: an all-`ZERO` state; for the `FixedLength` domain the
loop `while i < STATE_SIZE { state[i] = ONE }` starting at `i = RATE`
overwrites the capacity part with `ONE`. -/
def new (domain : Domain) : Tip5 :=
  match domain with
  | Domain.VariableLength => ⟨List.replicate STATE_SIZE BFieldElement.zero⟩
  | Domain.FixedLength =>
    ⟨(List.replicate STATE_SIZE BFieldElement.zero).mapIdx fun i x =>
      if RATE ≤ i then BFieldElement.one else x⟩

/-- `Tip5::split_and_lookup`: substitute every little-endian byte of the raw
Montgomery word through `LOOKUP_TABLE` and reassemble. -/
def split_and_lookup (element : BFieldElement) : BFieldElement :=
  BFieldElement.from_raw_bytes
    ((BFieldElement.raw_bytes element).map fun bj => LOOKUP_TABLE.getD bj 0)

/-- The folding of the recombined `u128` value `s128` into a `u64`
(the `s_hi`/`s_lo`/`overflowing_add` lines of `Tip5::mds_generated`):
`let s_hi = (s >> 64) as u64; let s_lo = s as u64;
let (res, over) = s_lo.overflowing_add(s_hi * 0xffffffff);
if over { res + 0xffffffff } else { res }`, split out (like `montyred_b`)
so that it can be characterised on its own. -/
def mds_fold (s128 : Nat) : Nat :=
  let s_hi := s128 / 2^64
  let s_lo := s128 % 2^64
  let sum := s_lo + wrap64 (s_hi * 0xffffffff)
  let res := wrap64 sum
  if 2^64 ≤ sum then res + 0xffffffff else res

/-- `Tip5::mds_generated` on a state list: split each raw word into 32-bit
halves, run `mds::generated_function` on both half-vectors, and recombine
with `(lo[r] >> 4) as u128 + ((hi[r] as u128) << 28)` followed by the
mod-`P`-preserving folding `mds_fold` of the `u128` into a `u64`. -/
def mds_generated (s : List BFieldElement) : List BFieldElement :=
  let lo := generated_function (s.map fun x => x.raw % 2^32)
  let hi := generated_function (s.map fun x => x.raw / 2^32 % 2^32)
  (List.range STATE_SIZE).map fun r =>
    BFieldElement.from_raw_u64 (mds_fold (lo.getD r 0 / 2^4 + hi.getD r 0 * 2^28))

/-- `Tip5::sbox_layer`: `split_and_lookup` on the first `NUM_SPLIT_AND_LOOKUP`
words; the remaining words are raised to the 7th power via
`sq = x * x; qu = sq * sq; x *= sq * qu`. -/
def sbox_layer (s : List BFieldElement) : List BFieldElement :=
  s.mapIdx fun i x =>
    if i < NUM_SPLIT_AND_LOOKUP then split_and_lookup x
    else
      let sq := BFieldElement.mul x x
      let qu := BFieldElement.mul sq sq
      BFieldElement.mul x (BFieldElement.mul sq qu)

/-- `Tip5::round`: S-box layer, diffusion layer, round-constant injection. -/
def round (s : List BFieldElement) (round_index : Nat) : List BFieldElement :=
  (mds_generated (sbox_layer s)).mapIdx fun i x =>
    BFieldElement.add x (ROUND_CONSTANTS.getD (round_index * STATE_SIZE + i) BFieldElement.zero)

/-- `Tip5::permutation`: the round function applied `NUM_ROUNDS` times. -/
def permutation (s : List BFieldElement) : List BFieldElement :=
  (List.range NUM_ROUNDS).foldl round s

end Tip5

/-- `copy_from_slice` into `s[off .. off + xs.length]`. -/
def write_slice (s : List BFieldElement) (off : Nat) (xs : List BFieldElement) :
    List BFieldElement :=
  s.take off ++ xs ++ s.drop (off + xs.length)

namespace Tip5

/-- `Tip5::hash_10`: fixed-length domain, one permutation, first
`Digest::LEN` state elements. -/
def hash_10 (input : List BFieldElement) : List BFieldElement :=
  (permutation (write_slice (new Domain.FixedLength).state 0 input)).take Digest.LEN

/-- `Tip5::hash_pair`: load the two digests into the rate part, one
permutation, first `Digest::LEN` state elements. -/
def hash_pair (left right : Digest) : Digest :=
  Digest.new
    ((permutation
        (write_slice (write_slice (new Domain.FixedLength).state 0 left.values)
          Digest.LEN right.values)).take Digest.LEN)

/-- `<Tip5 as Sponge>::init`. -/
def init : Tip5 := new Domain.VariableLength

/-- `<Tip5 as Sponge>::absorb`: overwrite the rate part with the input block,
then apply the permutation.  The block always has exactly `RATE` elements
(enforced by the array type `[BFieldElement; RATE]` in the source). -/
def absorb (s : List BFieldElement) (input : List BFieldElement) : List BFieldElement :=
  permutation (write_slice s 0 input)

/-- `<Tip5 as Sponge>::squeeze`: read the rate part, then permute. -/
def squeeze (s : List BFieldElement) : List BFieldElement × List BFieldElement :=
  (s.take RATE, permutation s)

end Tip5

/-- Rust `u64::next_multiple_of`: the smallest multiple of `m` that is `≥ n`. -/
def next_multiple_of (n m : Nat) : Nat := (n + m - 1) / m * m

/-- Consecutive `RATE`-sized chunks of a list (the `padded_input.chunks(RATE)`
iterator of `Sponge::pad_and_absorb_all`). -/
def chunksOf (l : List BFieldElement) : List (List BFieldElement) :=
  if l.isEmpty then [] else l.take RATE :: chunksOf (l.drop RATE)
termination_by l.length
decreasing_by
  simp only [List.length_drop]
  cases l with
  | nil => simp_all
  | cons a l => simp only [List.length_cons, RATE]; omega

/-- The padded input built by `Sponge::pad_and_absorb_all`: the input chained
with `once(ONE).chain(repeat(ZERO))`, truncated to `padded_length` elements.
The unbounded `repeat(ZERO)` tail is modelled by `padded_length` zeros, which
is always enough for the truncation. -/
def padded_input (input : List BFieldElement) : List BFieldElement :=
  let padded_length := next_multiple_of (input.length + 1) RATE
  (input ++ BFieldElement.one :: List.replicate padded_length BFieldElement.zero).take
    padded_length

/-- `Sponge::pad_and_absorb_all` (provided trait method, `sponge.rs`),
instantiated for `Tip5`: absorb the padded input in `RATE`-sized chunks. -/
def pad_and_absorb_all (s : List BFieldElement) (input : List BFieldElement) :
    List BFieldElement :=
  (chunksOf (padded_input input)).foldl Tip5.absorb s

/-- `Tip5::hash_varlen`. -/
def hash_varlen (input : List BFieldElement) : Digest :=
  Digest.new ((pad_and_absorb_all Tip5.init.state input).take Digest.LEN)

/-! ## Theorems

First, the characterisation of Montgomery reduction, the single
correctness-critical primitive. -/

namespace BFieldElement

theorem montyred_b_closed (h l : Nat) (hh : h < 2^32) (hl : l < 2^32) :
    montyred_b (2^32 * h + l) =
      if h + l < 2^32 then (h + l) * 4294967295 + l
      else (h + l - 2^32) * 4294967295 + (l - 1) := by
  simp only [montyred_b, wrap64]
  have a1 : (2^32 * h + l) * 2^32 % 2^64 = l * 2^32 := by
    have : (2^32 * h + l) * 2^32 = h * 2^64 + l * 2^32 := by ring
    rw [this]; omega
  rw [a1]
  split_ifs with hc
  · have a2 : (2^32 * h + l + l * 2^32) % 2^64 = 2^32 * h + l + l * 2^32 := by omega
    have a3 : (2^32 * h + l + l * 2^32) / 2^64 = 0 := by omega
    have a4 : (2^32 * h + l + l * 2^32) / 2^32 = h + l := by omega
    rw [a2, a3, a4]
    omega
  · have a2 : (2^32 * h + l + l * 2^32) % 2^64 = 2^32 * h + l + l * 2^32 - 2^64 := by omega
    have a3 : (2^32 * h + l + l * 2^32) / 2^64 = 1 := by omega
    rw [a2, a3]
    have a4 : (2^32 * h + l + l * 2^32 - 2^64) / 2^32 = h + l - 2^32 := by omega
    rw [a4]
    omega

theorem montyred_b_lt (xl : Nat) (hxl : xl < 2^64) : montyred_b xl < P := by
  obtain ⟨h, l, rfl, hh, hl⟩ : ∃ h l, xl = 2^32 * h + l ∧ h < 2^32 ∧ l < 2^32 :=
    ⟨xl / 2^32, xl % 2^32, by omega, by omega, by omega⟩
  rw [montyred_b_closed h l hh hl]
  simp only [P]
  split_ifs with hc
  · omega
  · omega

theorem montyred_b_cong (xl : Nat) (hxl : xl < 2^64) :
    (montyred_b xl * 4294967295 + xl) % P = 0 := by
  obtain ⟨h, l, rfl, hh, hl⟩ : ∃ h l, xl = 2^32 * h + l ∧ h < 2^32 ∧ l < 2^32 :=
    ⟨xl / 2^32, xl % 2^32, by omega, by omega, by omega⟩
  rw [montyred_b_closed h l hh hl]
  simp only [P]
  split_ifs with hc
  · have : ((h + l) * 4294967295 + l) * 4294967295 + (2^32 * h + l)
        = (h + l) * 18446744069414584321 := by ring
    omega
  · have : ((h + l - 2^32) * 4294967295 + (l - 1)) * 4294967295 + (2^32 * h + l)
        = (h + l - 2^32 + 1) * 18446744069414584321 := by
      obtain ⟨d, hd⟩ : ∃ d, h + l = 2^32 + d := ⟨h + l - 2^32, by omega⟩
      obtain ⟨m, hm⟩ : ∃ m, l = m + 1 := ⟨l - 1, by omega⟩
      subst hm
      have hh2 : h = 2^32 + d - (m + 1) := by omega
      subst hh2
      ring_nf
      omega
    omega

/-- Exact closed form of `montyred`: `xh - b`, corrected by `+ P` when the
subtraction borrows. -/
theorem montyred_closed (x : Nat) (hx : x < 2^128) :
    montyred x = x / 2^64 + (if x / 2^64 < montyred_b (x % 2^64) then P else 0)
      - montyred_b (x % 2^64) := by
  have hb1 := montyred_b_lt (x % 2^64) (by omega)
  simp only [montyred, wrap64]
  have hxh : x / 2^64 % 2^64 = x / 2^64 := by omega
  rw [hxh]
  by_cases hc : x / 2^64 < montyred_b (x % 2^64)
  · simp only [hc, if_true]
    simp only [P] at hb1 ⊢
    omega
  · simp only [hc, if_false]
    simp only [P] at hb1 ⊢
    omega

theorem montyred_lt_two64 (x : Nat) : montyred x < 2^64 := by
  simp only [montyred, wrap64]
  omega

theorem montyred_lt_p (x : Nat) (hx : x < P * 2^64) : montyred x < P := by
  have h128 : x < 2^128 := by simp only [P] at hx; omega
  rw [montyred_closed x h128]
  have hb1 := montyred_b_lt (x % 2^64) (by omega)
  have hxh : x / 2^64 < P := by simp only [P] at hx ⊢; omega
  split_ifs with hc
  · omega
  · omega

/-- `montyred x * 2^64 ≡ x (mod P)`: Montgomery reduction divides by
`R = 2^64` modulo `P`. -/
theorem montyred_zmod (x : Nat) (hx : x < 2^128) :
    (montyred x : ZMod P) * 2^64 = (x : ZMod P) := by
  have hb1 := montyred_b_lt (x % 2^64) (by omega)
  have hb2 := montyred_b_cong (x % 2^64) (by omega)
  rw [montyred_closed x hx]
  set b := montyred_b (x % 2^64) with hbdef
  have hcong : ((b * 4294967295 + x % 2^64 : Nat) : ZMod P) = 0 := by
    rw [← ZMod.natCast_mod, hb2, Nat.cast_zero]
  have hPatom : ((P : Nat) : ZMod P) = 0 := ZMod.natCast_self P
  have hP0 : ((18446744069414584321 : Nat) : ZMod P) = 0 := ZMod.natCast_self P
  have hsplitK : ((2^64 * (x / 2^64) + x % 2^64 : Nat) : ZMod P) = (x : ZMod P) := by
    rw [Nat.div_add_mod]
  push_cast at hcong hP0 hsplitK
  split_ifs with hc
  · have hle : b ≤ x / 2^64 + P := by simp only [P]; simp only [P] at hb1; omega
    rw [Nat.cast_sub hle]
    push_cast
    linear_combination (-1 : ZMod P) * hcong + ((2:ZMod P)^64) * hPatom
      + (-(b : ZMod P)) * hP0 + hsplitK
  · have hle : b ≤ x / 2^64 + 0 := by omega
    rw [Nat.cast_sub hle]
    push_cast
    linear_combination (-1 : ZMod P) * hcong + (-(b : ZMod P)) * hP0 + hsplitK

/-- Injectivity of the cast `ℕ → ZMod P` on `[0, P)`. -/
theorem nat_eq_of_cast_eq {m n : Nat} (hm : m < P) (hn : n < P)
    (h : (m : ZMod P) = (n : ZMod P)) : m = n := by
  haveI : NeZero P := ⟨by decide⟩
  have hv := congrArg ZMod.val h
  rwa [ZMod.val_cast_of_lt hm, ZMod.val_cast_of_lt hn] at hv

/-- `R * R⁻¹ = 1` in `ZMod P` for the explicit inverse
`R⁻¹ = 18446744065119617025` of `R = 2^64`. -/
theorem R_mul_Rinv : (2 : ZMod P)^64 * (18446744065119617025 : ZMod P) = 1 := by
  have h3 : ((2^64 * 18446744065119617025 : Nat) : ZMod P) = ((1 : Nat) : ZMod P) := by
    rw [ZMod.natCast_eq_natCast_iff']
    decide
  push_cast at h3
  linear_combination h3

/-- Cancellation of the unit `R = 2^64` in `ZMod P`. -/
theorem R_cancel {u v : ZMod P} (h : u * 2^64 = v * 2^64) : u = v := by
  calc u = u * ((2 : ZMod P)^64 * 18446744065119617025) := by rw [R_mul_Rinv, mul_one]
    _ = u * (2:ZMod P)^64 * 18446744065119617025 := by ring
    _ = v * (2:ZMod P)^64 * 18446744065119617025 := by rw [h]
    _ = v * ((2 : ZMod P)^64 * 18446744065119617025) := by ring
    _ = v := by rw [R_mul_Rinv, mul_one]

theorem value_lt (x : BFieldElement) (hx : x.raw < 2^64) : x.value < P := by
  apply montyred_lt_p
  have hP : 2 ≤ P := by decide
  calc x.raw < 2^64 := hx
    _ ≤ P * 2^64 := by nlinarith

theorem value_zmod (x : BFieldElement) (hx : x.raw < 2^64) :
    (x.value : ZMod P) * 2^64 = (x.raw : ZMod P) :=
  montyred_zmod x.raw (by omega)

end BFieldElement

namespace BFieldElement

/-- Closed form of `add` on raw words (for `rhs.0 ≤ P` the wrapping
`Self::P - rhs.0` does not underflow). -/
theorem add_closed (a b : BFieldElement) (ha : a.raw < 2^64) (hb : b.raw ≤ P) :
    (add a b).raw = if a.raw + b.raw < P then a.raw + b.raw else a.raw + b.raw - P := by
  simp only [add, wsub64, wrap64]
  simp only [P] at *
  split_ifs <;> simp_all <;> omega

/-- Closed form of `sub` on raw words. -/
theorem sub_closed (a b : BFieldElement) (ha : a.raw < 2^64) (hb : b.raw ≤ P) :
    (sub a b).raw = if a.raw < b.raw then a.raw + P - b.raw else a.raw - b.raw := by
  simp only [sub, wsub64, wrap64]
  simp only [P] at *
  split_ifs <;> simp_all <;> omega

/-- From a Montgomery-domain congruence `raw ≡ n · R (mod P)` to a canonical
value: `value = n % P`. -/
theorem value_eq_mod (x : BFieldElement) (n : Nat) (hx : x.raw < 2^64)
    (h : (x.raw : ZMod P) = (n : ZMod P) * 2^64) : x.value = n % P := by
  apply nat_eq_of_cast_eq (value_lt x hx) (Nat.mod_lt _ (by decide))
  rw [ZMod.natCast_mod]
  apply R_cancel
  rw [value_zmod x hx, h]

theorem zero_raw : zero.raw = 0 := by decide

theorem zero_value : zero.value = 0 := by decide

theorem one_raw : one.raw = 4294967295 := by decide

/-- `R2` is `R * R` modulo `P`. -/
theorem R2_cast : ((R2 : Nat) : ZMod P) = (2 : ZMod P)^64 * (2 : ZMod P)^64 := by
  have h : ((R2 : Nat) : ZMod P) = ((2^64 * 2^64 : Nat) : ZMod P) := by
    rw [ZMod.natCast_eq_natCast_iff']
    decide
  rw [h]
  push_cast
  ring

end BFieldElement

/-- Claim C1: for every 128-bit integer `x` with `x` in `[0, p·2^64)` where
`p = 2^64 − 2^32 + 1`, `BFieldElement::montyred(x)` returns a value that fits
in 64 bits and is congruent to `x·R⁻¹` modulo `p` with `R = 2^64` (witnessed
by the explicit inverse `R⁻¹ = 18446744065119617025` of `R` modulo `p`); in
particular `montyred(2_609_026_890_597_981_882) = 11_259_563_268_822_605_859`. -/
theorem claim_C1 (x : Nat) (hx : x < BFieldElement.P * 2^64) :
    BFieldElement.montyred x < 2^64 ∧
    BFieldElement.montyred x % BFieldElement.P
      = x * 18446744065119617025 % BFieldElement.P ∧
    2^64 * 18446744065119617025 % BFieldElement.P = 1 ∧
    BFieldElement.montyred 2609026890597981882 = 11259563268822605859 := by
  have hx128 : x < 2^128 := by
    have : BFieldElement.P * 2^64 < 2^128 := by decide
    omega
  refine ⟨BFieldElement.montyred_lt_two64 x, ?_, by decide, by decide⟩
  rw [← ZMod.natCast_eq_natCast_iff']
  push_cast
  apply BFieldElement.R_cancel
  rw [BFieldElement.montyred_zmod x hx128]
  linear_combination (-(x : ZMod BFieldElement.P)) * BFieldElement.R_mul_Rinv

theorem claim_C1_witness :
    BFieldElement.montyred 2609026890597981882 < 2^64 ∧
    BFieldElement.montyred 2609026890597981882 % BFieldElement.P
      = 2609026890597981882 * 18446744065119617025 % BFieldElement.P ∧
    2^64 * 18446744065119617025 % BFieldElement.P = 1 ∧
    BFieldElement.montyred 2609026890597981882 = 11259563268822605859 :=
  claim_C1 2609026890597981882 (by decide)

/-- Claim C9: for every `v` in `[0, p)`, `BFieldElement::new(v).value() = v`:
construction into Montgomery form followed by canonicalization is the
identity on canonical residues. -/
theorem claim_C9 (v : Nat) (hv : v < BFieldElement.P) :
    (BFieldElement.new v).value = v := by
  have hraw : (BFieldElement.new v).raw = BFieldElement.montyred (v * BFieldElement.R2) := rfl
  have harg : v * BFieldElement.R2 < BFieldElement.P * 2^64 := by
    have h2 : BFieldElement.R2 < 2^64 := by decide
    exact Nat.mul_lt_mul'' hv h2
  have hraw_lt : (BFieldElement.new v).raw < BFieldElement.P := by
    rw [hraw]; exact BFieldElement.montyred_lt_p _ harg
  have h1 : ((BFieldElement.new v).value : ZMod BFieldElement.P) * 2^64 * 2^64 * 2^64
      = (v : ZMod BFieldElement.P) * 2^64 * 2^64 * 2^64 := by
    have hv2 := BFieldElement.value_zmod (BFieldElement.new v)
      (lt_of_lt_of_le hraw_lt (by decide))
    rw [hraw] at hv2
    have hm := BFieldElement.montyred_zmod (v * BFieldElement.R2) (by
      have : BFieldElement.P * 2^64 < 2^128 := by decide
      omega)
    push_cast at hm
    linear_combination (2 : ZMod BFieldElement.P)^64 * (2 : ZMod BFieldElement.P)^64 * hv2
      + (2 : ZMod BFieldElement.P)^64 * hm
      + (v : ZMod BFieldElement.P) * (2 : ZMod BFieldElement.P)^64 * BFieldElement.R2_cast
  have h2 : ((BFieldElement.new v).value : ZMod BFieldElement.P)
      = (v : ZMod BFieldElement.P) :=
    BFieldElement.R_cancel (BFieldElement.R_cancel (BFieldElement.R_cancel h1))
  exact BFieldElement.nat_eq_of_cast_eq
    (BFieldElement.value_lt _ (lt_of_lt_of_le hraw_lt (by decide))) hv h2

theorem claim_C9_witness : (BFieldElement.new 12045832659793544965).value = 12045832659793544965 :=
  claim_C9 12045832659793544965 (by decide)

namespace BFieldElement

theorem P_le_two64 : P ≤ 2^64 := by decide

theorem add_value_lemma (a b : BFieldElement) (ha : a.raw < P) (hb : b.raw < P) :
    (add a b).value = (a.value + b.value) % P := by
  have ha64 : a.raw < 2^64 := lt_of_lt_of_le ha P_le_two64
  have hb64 : b.raw < 2^64 := lt_of_lt_of_le hb P_le_two64
  have hva := value_zmod a ha64
  have hvb := value_zmod b hb64
  have hraw_eq := add_closed a b ha64 (le_of_lt hb)
  have hlt : (add a b).raw < 2^64 := by
    rw [hraw_eq]; split_ifs with hc
    · exact lt_of_lt_of_le hc P_le_two64
    · omega
  apply value_eq_mod _ _ hlt
  rw [hraw_eq]
  split_ifs with hc
  · push_cast
    linear_combination (-1 : ZMod P) * hva + (-1 : ZMod P) * hvb
  · rw [Nat.cast_sub (le_of_not_lt hc)]
    push_cast
    have hPatom : ((P : Nat) : ZMod P) = 0 := ZMod.natCast_self P
    linear_combination (-1 : ZMod P) * hva + (-1 : ZMod P) * hvb + (-1 : ZMod P) * hPatom

theorem sub_value_lemma (a b : BFieldElement) (ha : a.raw < P) (hb : b.raw < P) :
    (sub a b).value = (a.value + (P - b.value)) % P := by
  have ha64 : a.raw < 2^64 := lt_of_lt_of_le ha P_le_two64
  have hb64 : b.raw < 2^64 := lt_of_lt_of_le hb P_le_two64
  have hva := value_zmod a ha64
  have hvb := value_zmod b hb64
  have hvb_lt := value_lt b hb64
  have hva_lt := value_lt a ha64
  have hPatom : ((P : Nat) : ZMod P) = 0 := ZMod.natCast_self P
  have hraw_eq := sub_closed a b ha64 (le_of_lt hb)
  have hlt : (sub a b).raw < 2^64 := by
    rw [hraw_eq]; split_ifs with hc
    · simp only [P] at hb ⊢; omega
    · omega
  apply value_eq_mod _ _ hlt
  rw [hraw_eq]
  rw [show a.value + (P - b.value) = a.value + P - b.value from by omega]
  split_ifs with hc
  · rw [Nat.cast_sub (by omega), Nat.cast_sub (by omega)]
    push_cast
    linear_combination (-1 : ZMod P) * hva + hvb + (1 - (2 : ZMod P)^64) * hPatom
  · rw [Nat.cast_sub (le_of_not_lt hc), Nat.cast_sub (by omega)]
    push_cast
    linear_combination (-1 : ZMod P) * hva + hvb + (-(2 : ZMod P)^64) * hPatom

theorem mul_value_lemma (a b : BFieldElement) (ha : a.raw < 2^64) (hb : b.raw < 2^64) :
    (mul a b).value = (a.value * b.value) % P := by
  have hva := value_zmod a ha
  have hvb := value_zmod b hb
  have hprod : a.raw * b.raw < 2^128 :=
    lt_of_lt_of_le (Nat.mul_lt_mul'' ha hb) (by norm_num)
  have hm := montyred_zmod (a.raw * b.raw) hprod
  have hlt : (mul a b).raw < 2^64 := montyred_lt_two64 _
  apply value_eq_mod _ _ hlt
  apply R_cancel
  show (montyred (a.raw * b.raw) : ZMod P) * 2^64 = _
  rw [hm]
  push_cast
  linear_combination (-(b.raw : ZMod P)) * hva
    + (-((a.value : ZMod P) * (2 : ZMod P)^64)) * hvb

end BFieldElement

/-- Claim C2: for all field elements `a` and `b` (canonically represented,
`raw < P`), the arithmetic operations `a + b`, `a - b`, `a * b` and `-a`
return elements whose canonical value equals the corresponding field
operation applied to the operands' canonical values modulo `p`; moreover the
stored word of any element, reduced through the canonicalization routine,
always lies in `[0, p)`. -/
theorem claim_C2 (a b : BFieldElement) (ha : a.raw < BFieldElement.P)
    (hb : b.raw < BFieldElement.P) :
    (BFieldElement.add a b).value = (a.value + b.value) % BFieldElement.P ∧
    (BFieldElement.sub a b).value
      = (a.value + (BFieldElement.P - b.value)) % BFieldElement.P ∧
    (BFieldElement.mul a b).value = (a.value * b.value) % BFieldElement.P ∧
    (BFieldElement.neg a).value = (BFieldElement.P - a.value) % BFieldElement.P ∧
    (∀ x : BFieldElement, x.raw < 2^64 → x.canonical_representation < BFieldElement.P) := by
  refine ⟨BFieldElement.add_value_lemma a b ha hb,
    BFieldElement.sub_value_lemma a b ha hb,
    BFieldElement.mul_value_lemma a b (lt_of_lt_of_le ha BFieldElement.P_le_two64)
      (lt_of_lt_of_le hb BFieldElement.P_le_two64), ?_,
    fun x hx => BFieldElement.value_lt x hx⟩
  show (BFieldElement.sub BFieldElement.zero a).value = _
  rw [BFieldElement.sub_value_lemma BFieldElement.zero a (by decide) ha,
    BFieldElement.zero_value, Nat.zero_add]

theorem claim_C2_witness :
    ((BFieldElement.mk 3).raw < BFieldElement.P ∧ (BFieldElement.mk 5).raw < BFieldElement.P) ∧
    ((BFieldElement.add ⟨3⟩ ⟨5⟩).value
        = ((BFieldElement.mk 3).value + (BFieldElement.mk 5).value) % BFieldElement.P ∧
      (BFieldElement.sub ⟨3⟩ ⟨5⟩).value
        = ((BFieldElement.mk 3).value
            + (BFieldElement.P - (BFieldElement.mk 5).value)) % BFieldElement.P ∧
      (BFieldElement.mul ⟨3⟩ ⟨5⟩).value
        = ((BFieldElement.mk 3).value * (BFieldElement.mk 5).value) % BFieldElement.P ∧
      (BFieldElement.neg ⟨3⟩).value
        = (BFieldElement.P - (BFieldElement.mk 3).value) % BFieldElement.P ∧
      (∀ x : BFieldElement, x.raw < 2^64 →
        x.canonical_representation < BFieldElement.P)) :=
  ⟨⟨by decide, by decide⟩, claim_C2 ⟨3⟩ ⟨5⟩ (by decide) (by decide)⟩

theorem powModAux_correct : ∀ (fuel e : Nat), e < 2^fuel → ∀ (b m : Nat), 0 < m →
    powModAux fuel b e m = b^e % m := by
  intro fuel
  induction fuel with
  | zero =>
    intro e he b m hm
    have he0 : e = 0 := by omega
    subst he0
    simp [powModAux]
  | succ f ih =>
    intro e he b m hm
    simp only [powModAux]
    by_cases h0 : e = 0
    · subst h0; simp
    · simp only [h0, if_false]
      have hrec := ih (e / 2) (by omega) (b * b % m) m hm
      rw [hrec, ← Nat.pow_mod]
      by_cases h1 : e % 2 = 1
      · simp only [h1, if_pos]
        rw [← Nat.mul_mod]
        conv_rhs => rw [show e = 2 * (e / 2) + 1 from by omega]
        rw [pow_succ, pow_mul]
        ring_nf
      · simp only [h1, if_neg, if_false]
        conv_rhs => rw [show e = 2 * (e / 2) from by omega]
        rw [pow_mul]
        ring_nf

/-- Casting `powMod` values of base `7` into `ZMod P`. -/
theorem pow7_cast (N : Nat) (hN : N < 2^128) :
    (7 : ZMod BFieldElement.P)^N
      = ((powMod 7 N BFieldElement.P : Nat) : ZMod BFieldElement.P) := by
  rw [show powMod 7 N BFieldElement.P = powModAux 128 7 N BFieldElement.P from rfl,
    powModAux_correct 128 N hN 7 BFieldElement.P (by decide), ZMod.natCast_mod]
  push_cast
  ring

/-- `P = 2^64 - 2^32 + 1` is prime (Lucas primality certificate with
witness `7` and the factorisation `P - 1 = 2^32 · 3 · 5 · 17 · 257 · 65537`). -/
theorem P_prime : Nat.Prime BFieldElement.P := by
  apply lucas_primality BFieldElement.P (7 : ZMod BFieldElement.P)
  · rw [pow7_cast (BFieldElement.P - 1) (by decide)]
    rw [show powMod 7 (BFieldElement.P - 1) BFieldElement.P = 1 from by decide]
    exact Nat.cast_one
  · intro q hq hdvd
    have hfac : BFieldElement.P - 1 = 2^32 * (3 * (5 * (17 * (257 * 65537)))) := by decide
    rw [hfac] at hdvd
    have hq2 : q = 2 ∨ q = 3 ∨ q = 5 ∨ q = 17 ∨ q = 257 ∨ q = 65537 := by
      rcases (Nat.Prime.dvd_mul hq).mp hdvd with h | h
      · exact Or.inl ((Nat.prime_dvd_prime_iff_eq hq Nat.prime_two).mp
          (hq.dvd_of_dvd_pow h))
      rcases (Nat.Prime.dvd_mul hq).mp h with h | h
      · exact Or.inr (Or.inl ((Nat.prime_dvd_prime_iff_eq hq (by norm_num)).mp h))
      rcases (Nat.Prime.dvd_mul hq).mp h with h | h
      · exact Or.inr (Or.inr (Or.inl ((Nat.prime_dvd_prime_iff_eq hq (by norm_num)).mp h)))
      rcases (Nat.Prime.dvd_mul hq).mp h with h | h
      · exact Or.inr (Or.inr (Or.inr (Or.inl
          ((Nat.prime_dvd_prime_iff_eq hq (by norm_num)).mp h))))
      rcases (Nat.Prime.dvd_mul hq).mp h with h | h
      · exact Or.inr (Or.inr (Or.inr (Or.inr (Or.inl
          ((Nat.prime_dvd_prime_iff_eq hq (by norm_num)).mp h)))))
      · exact Or.inr (Or.inr (Or.inr (Or.inr (Or.inr
          ((Nat.prime_dvd_prime_iff_eq hq (by norm_num)).mp h)))))
    have hone : (1 : ZMod BFieldElement.P) = ((1 : Nat) : ZMod BFieldElement.P) :=
      (Nat.cast_one).symm
    rcases hq2 with rfl | rfl | rfl | rfl | rfl | rfl <;>
      · rw [pow7_cast _ (by decide), hone, Ne, ZMod.natCast_eq_natCast_iff']
        decide

namespace BFieldElement

theorem raw64 {y : BFieldElement} (hy : y.raw < P) : y.raw < 2^64 :=
  lt_of_lt_of_le hy P_le_two64

theorem mul_raw_lt_p (a b : BFieldElement) (ha : a.raw < P) (hb : b.raw < P) :
    (mul a b).raw < P := by
  apply montyred_lt_p
  calc a.raw * b.raw < P * P := Nat.mul_lt_mul'' ha hb
    _ ≤ P * 2^64 := Nat.mul_le_mul_left P P_le_two64

theorem mul_value_zmod (a b : BFieldElement) (ha : a.raw < 2^64) (hb : b.raw < 2^64) :
    ((mul a b).value : ZMod P) = (a.value : ZMod P) * (b.value : ZMod P) := by
  rw [mul_value_lemma a b ha hb, ZMod.natCast_mod]
  push_cast
  ring

/-- Structural equality from raw-word equality. -/
theorem eq_of_raw_eq (x y : BFieldElement) (h : x.raw = y.raw) : x = y := by
  cases x; cases y; simpa using h

/-- Structural equality from canonical-value equality, for canonical raw
words. -/
theorem eq_of_value_eq (x y : BFieldElement) (hx : x.raw < P) (hy : y.raw < P)
    (h : x.value = y.value) : x = y := by
  apply eq_of_raw_eq
  apply nat_eq_of_cast_eq hx hy
  rw [← value_zmod x (raw64 hx), ← value_zmod y (raw64 hy), h]

theorem mul_step (y z : BFieldElement) (hy : y.raw < P) (hz : z.raw < P)
    (v : ZMod P) (m n : Nat) (hyv : (y.value : ZMod P) = v^m)
    (hzv : (z.value : ZMod P) = v^n) :
    (mul y z).raw < P ∧ ((mul y z).value : ZMod P) = v^(m+n) := by
  refine ⟨mul_raw_lt_p y z hy hz, ?_⟩
  rw [mul_value_zmod y z (raw64 hy) (raw64 hz), hyv, hzv, pow_add]

theorem sq_step (y : BFieldElement) (hy : y.raw < P) (v : ZMod P) (m : Nat)
    (hyv : (y.value : ZMod P) = v^m) :
    (square y).raw < P ∧ ((square y).value : ZMod P) = v^(m+m) := by
  refine ⟨mul_raw_lt_p y y hy hy, ?_⟩
  show ((mul y y).value : ZMod P) = _
  rw [mul_value_zmod y y (raw64 hy) (raw64 hy), hyv, pow_add]

theorem exp_step (k : Nat) : ∀ (y : BFieldElement), y.raw < P → ∀ (v : ZMod P) (m : Nat),
    (y.value : ZMod P) = v^m →
    (exp y k).raw < P ∧ ((exp y k).value : ZMod P) = v^(m * 2^k) := by
  induction k with
  | zero =>
    intro y hy v m hyv
    refine ⟨hy, ?_⟩
    show (y.value : ZMod P) = v^(m * 2^0)
    rw [hyv]
    norm_num
  | succ k ih =>
    intro y hy v m hyv
    have hsq := sq_step y hy v m hyv
    obtain ⟨hr, hv⟩ := ih (mul y y) (mul_raw_lt_p y y hy hy) v (m+m) hsq.2
    refine ⟨hr, ?_⟩
    rw [show exp y (k+1) = exp (mul y y) k from rfl, hv]
    congr 1
    ring

/-- The addition chain of `inverse` computes the Fermat power `x^(P-2)` and
keeps the raw word canonical. -/
theorem inverse_chain_spec (x : BFieldElement) (hx : x.raw < P) :
    (inverse_chain x).raw < P ∧
    ((inverse_chain x).value : ZMod P) = ((x.value : ZMod P))^(P - 2) := by
  have hx1 : (x.value : ZMod P) = ((x.value : ZMod P))^1 := (pow_one _).symm
  obtain ⟨hsqr, hsqv⟩ := sq_step x hx _ 1 hx1
  obtain ⟨h2r, h2v⟩ := mul_step _ x hsqr hx _ 2 1 hsqv hx1
  obtain ⟨hsq2r, hsq2v⟩ := sq_step _ h2r _ 3 h2v
  obtain ⟨h3r, h3v⟩ := mul_step _ x hsq2r hx _ 6 1 hsq2v hx1
  obtain ⟨he3r, he3v⟩ := exp_step 3 _ h3r _ 7 h3v
  obtain ⟨h6r, h6v⟩ := mul_step _ _ he3r h3r _ 56 7 he3v h3v
  obtain ⟨he6r, he6v⟩ := exp_step 6 _ h6r _ 63 h6v
  obtain ⟨h12r, h12v⟩ := mul_step _ _ he6r h6r _ 4032 63 he6v h6v
  obtain ⟨he12r, he12v⟩ := exp_step 12 _ h12r _ 4095 h12v
  obtain ⟨h24r, h24v⟩ := mul_step _ _ he12r h12r _ 16773120 4095 he12v h12v
  obtain ⟨he24r, he24v⟩ := exp_step 6 _ h24r _ 16777215 h24v
  obtain ⟨h30r, h30v⟩ := mul_step _ _ he24r h6r _ 1073741760 63 he24v h6v
  obtain ⟨hsq30r, hsq30v⟩ := sq_step _ h30r _ 1073741823 h30v
  obtain ⟨h31r, h31v⟩ := mul_step _ x hsq30r hx _ 2147483646 1 hsq30v hx1
  obtain ⟨h31zr, h31zv⟩ := sq_step _ h31r _ 2147483647 h31v
  obtain ⟨h32r, h32v⟩ := mul_step _ x h31zr hx _ 4294967294 1 h31zv hx1
  obtain ⟨heZr, heZv⟩ := exp_step 32 _ h31zr _ 4294967294 h31zv
  obtain ⟨hfr, hfv⟩ := mul_step _ _ heZr h32r _ 18446744065119617024 4294967295 heZv h32v
  rw [show (18446744065119617024 + 4294967295 : Nat) = P - 2 from by decide] at hfv
  exact ⟨hfr, hfv⟩

theorem one_value : one.value = 1 := by decide

theorem value_ne_zero (a : BFieldElement) (ha : a.raw < P) (ha0 : a.raw ≠ 0) :
    (a.value : ZMod P) ≠ 0 := by
  intro h0
  have hz := value_zmod a (raw64 ha)
  rw [h0, zero_mul] at hz
  apply ha0
  apply nat_eq_of_cast_eq ha (by decide : (0:Nat) < P)
  rw [Nat.cast_zero]
  exact hz.symm

end BFieldElement

/-- Claim C8: for every nonzero (canonically represented) field element `a`,
`a.inverse()` returns the Fermat power `a^(p-2)` — its canonical value is
`a.value ^ (p-2) mod p` — and consequently `a * a.inverse() = 1` and
`a.inverse().inverse() = a`. -/
theorem claim_C8 (a c : BFieldElement) (ha : a.raw < BFieldElement.P) (ha0 : a.raw ≠ 0)
    (hinv : BFieldElement.inverse a = some c) :
    c.value = a.value ^ (BFieldElement.P - 2) % BFieldElement.P ∧
    BFieldElement.mul a c = BFieldElement.one ∧
    BFieldElement.inverse c = some a := by
  haveI : Fact (Nat.Prime BFieldElement.P) := ⟨P_prime⟩
  have hane : a ≠ BFieldElement.zero := by
    intro h
    apply ha0
    rw [h, BFieldElement.zero_raw]
  have hc : c = BFieldElement.inverse_chain a := by
    simp only [BFieldElement.inverse, if_neg hane, Option.some.injEq] at hinv
    exact hinv.symm
  subst hc
  obtain ⟨hcr, hcv⟩ := BFieldElement.inverse_chain_spec a ha
  have hva_ne : (a.value : ZMod BFieldElement.P) ≠ 0 :=
    BFieldElement.value_ne_zero a ha ha0
  have hferm : (a.value : ZMod BFieldElement.P)^(BFieldElement.P - 1) = 1 :=
    ZMod.pow_card_sub_one_eq_one hva_ne
  refine ⟨?_, ?_, ?_⟩
  · apply BFieldElement.nat_eq_of_cast_eq
      (BFieldElement.value_lt _ (BFieldElement.raw64 hcr))
      (Nat.mod_lt _ (by decide))
    rw [ZMod.natCast_mod]
    push_cast
    exact hcv
  · apply BFieldElement.eq_of_value_eq _ _
      (BFieldElement.mul_raw_lt_p a _ ha hcr) (by decide)
    rw [BFieldElement.one_value]
    apply BFieldElement.nat_eq_of_cast_eq
      (BFieldElement.value_lt _ (BFieldElement.raw64
        (BFieldElement.mul_raw_lt_p a _ ha hcr)))
      (by decide : (1:Nat) < BFieldElement.P)
    rw [BFieldElement.mul_value_zmod a _ (BFieldElement.raw64 ha)
        (BFieldElement.raw64 hcr), hcv, Nat.cast_one]
    rw [← pow_succ']
    rw [show BFieldElement.P - 2 + 1 = BFieldElement.P - 1 from by decide]
    exact hferm
  · have hcne : BFieldElement.inverse_chain a ≠ BFieldElement.zero := by
      intro h
      have h0 : ((BFieldElement.inverse_chain a).value : ZMod BFieldElement.P) = 0 := by
        rw [h, BFieldElement.zero_value, Nat.cast_zero]
      rw [hcv] at h0
      exact pow_ne_zero _ hva_ne h0
    have hkey : BFieldElement.inverse_chain (BFieldElement.inverse_chain a) = a := by
      obtain ⟨hccr, hccv⟩ := BFieldElement.inverse_chain_spec _ hcr
      apply BFieldElement.eq_of_value_eq _ _ hccr ha
      apply BFieldElement.nat_eq_of_cast_eq
        (BFieldElement.value_lt _ (BFieldElement.raw64 hccr))
        (BFieldElement.value_lt _ (BFieldElement.raw64 ha))
      rw [hccv, hcv, ← pow_mul]
      rw [show (BFieldElement.P - 2) * (BFieldElement.P - 2)
          = (BFieldElement.P - 1) * (BFieldElement.P - 3) + 1 from by decide]
      rw [pow_add, pow_mul, hferm, one_pow, pow_one, one_mul]
    rw [BFieldElement.inverse, if_neg hcne, hkey]

theorem claim_C8_witness :
    ((BFieldElement.mk 2).raw < BFieldElement.P ∧ (BFieldElement.mk 2).raw ≠ 0 ∧
      BFieldElement.inverse ⟨2⟩ = some (BFieldElement.inverse_chain ⟨2⟩)) ∧
    ((BFieldElement.inverse_chain ⟨2⟩).value
        = (BFieldElement.mk 2).value ^ (BFieldElement.P - 2) % BFieldElement.P ∧
      BFieldElement.mul ⟨2⟩ (BFieldElement.inverse_chain ⟨2⟩) = BFieldElement.one ∧
      BFieldElement.inverse (BFieldElement.inverse_chain ⟨2⟩) = some ⟨2⟩) :=
  ⟨⟨by decide, by decide,
      by simp only [BFieldElement.inverse]; rw [if_neg (by decide)]⟩,
    claim_C8 ⟨2⟩ (BFieldElement.inverse_chain ⟨2⟩) (by decide) (by decide)
      (by simp only [BFieldElement.inverse]; rw [if_neg (by decide)])⟩

/-- Claim C10: `inverse` fails fast (modelled as `none` for the
`assert_ne!` panic) exactly on the zero element; division `a / b` fails in
the same way exactly when `b` is zero, and otherwise equals
`b.inverse() * a`; the remaining field operations are total functions. -/
theorem claim_C10 (a b : BFieldElement) :
    (BFieldElement.inverse b = none ↔ b = BFieldElement.zero) ∧
    (BFieldElement.div a b = none ↔ b = BFieldElement.zero) ∧
    (b ≠ BFieldElement.zero →
      BFieldElement.div a b
        = some (BFieldElement.mul (BFieldElement.inverse_chain b) a)) := by
  by_cases hb : b = BFieldElement.zero
  · subst hb
    refine ⟨by simp [BFieldElement.inverse], by simp [BFieldElement.div, BFieldElement.inverse],
      fun h => absurd rfl h⟩
  · exact ⟨by simp [BFieldElement.inverse, hb], by simp [BFieldElement.div, BFieldElement.inverse, hb],
      fun _ => by simp [BFieldElement.div, BFieldElement.inverse, hb]⟩

theorem claim_C10_witness :
    (BFieldElement.inverse ⟨5⟩ = none ↔ (BFieldElement.mk 5) = BFieldElement.zero) ∧
    (BFieldElement.div ⟨3⟩ ⟨5⟩ = none ↔ (BFieldElement.mk 5) = BFieldElement.zero) ∧
    ((BFieldElement.mk 5) ≠ BFieldElement.zero →
      BFieldElement.div ⟨3⟩ ⟨5⟩
        = some (BFieldElement.mul (BFieldElement.inverse_chain ⟨5⟩) ⟨3⟩)) :=
  claim_C10 ⟨3⟩ ⟨5⟩

/-- Claim C3: `Tip5::new(Domain::FixedLength)` initialises the sponge state
with the rate part (indices `0..10`) all zero and the capacity part
(indices `10..16`) all equal to the field element `1`, while
`Tip5::new(Domain::VariableLength)` initialises all 16 state elements to the
field element `0`. -/
theorem claim_C3 :
    (Tip5.new Domain.FixedLength).state
      = List.replicate RATE BFieldElement.zero
        ++ List.replicate (STATE_SIZE - RATE) BFieldElement.one ∧
    (Tip5.new Domain.VariableLength).state
      = List.replicate STATE_SIZE BFieldElement.zero := by
  constructor
  · decide
  · decide

/-- `getD` through `mapIdx` at an in-range index. -/
theorem getD_mapIdx (l : List α) (f : Nat → α → β) (i : Nat) (hi : i < l.length)
    (d : β) (d2 : α) : (l.mapIdx f).getD i d = f i (l.getD i d2) := by
  rw [List.getD_eq_getElem _ _ (by simpa using hi), List.getD_eq_getElem _ _ hi]
  simp

/-- `getD` through `map` at an in-range index. -/
theorem getD_map_lt (l : List α) (f : α → β) (i : Nat) (hi : i < l.length)
    (d : β) (d2 : α) : (l.map f).getD i d = f (l.getD i d2) := by
  rw [List.getD_eq_getElem _ _ (by simpa using hi), List.getD_eq_getElem _ _ hi]
  simp

/-- `getD` of `(List.range n).map f` at an in-range index. -/
theorem getD_map_range (n : Nat) (f : Nat → α) (i : Nat) (hi : i < n) (d : α) :
    ((List.range n).map f).getD i d = f i := by
  rw [getD_map_lt _ f i (by simpa using hi) d 0, List.getD_eq_getElem _ _ (by simpa using hi)]
  simp

/-- Claim C7: `hash_pair(a, b)` equals `hash_10` applied to the 10-element
concatenation of `a`'s 5 digest elements followed by `b`'s 5 digest
elements, for all digests `a` and `b`. -/
theorem claim_C7 (a b : Digest) (ha : a.values.length = Digest.LEN)
    (hb : b.values.length = Digest.LEN) :
    Tip5.hash_pair a b = Digest.new (Tip5.hash_10 (a.values ++ b.values)) := by
  unfold Tip5.hash_pair Tip5.hash_10
  have hkey : write_slice (write_slice (Tip5.new Domain.FixedLength).state 0 a.values)
        Digest.LEN b.values
      = write_slice (Tip5.new Domain.FixedLength).state 0 (a.values ++ b.values) := by
    unfold write_slice
    simp only [List.take_zero, List.nil_append, Nat.zero_add, List.length_append]
    rw [show Digest.LEN = a.values.length from ha.symm]
    have h1 : List.take a.values.length
          (a.values ++ List.drop a.values.length (Tip5.new Domain.FixedLength).state)
        = a.values := by
      rw [List.take_append_eq_append_take, List.take_length, Nat.sub_self, List.take_zero,
        List.append_nil]
    have h2 : List.drop (a.values.length + b.values.length)
          (a.values ++ List.drop a.values.length (Tip5.new Domain.FixedLength).state)
        = List.drop (a.values.length + b.values.length)
            (Tip5.new Domain.FixedLength).state := by
      rw [List.drop_append_eq_append_drop]
      rw [List.drop_eq_nil_of_le (by omega), List.nil_append, List.drop_drop]
      congr 1
      omega
    rw [h1, h2]
  rw [hkey]

theorem claim_C7_witness :
    ((Digest.new (List.replicate 5 (BFieldElement.mk 1))).values.length = Digest.LEN ∧
      (Digest.new (List.replicate 5 (BFieldElement.mk 2))).values.length = Digest.LEN) ∧
    Tip5.hash_pair (Digest.new (List.replicate 5 (BFieldElement.mk 1)))
        (Digest.new (List.replicate 5 (BFieldElement.mk 2)))
      = Digest.new (Tip5.hash_10
          ((Digest.new (List.replicate 5 (BFieldElement.mk 1))).values
            ++ (Digest.new (List.replicate 5 (BFieldElement.mk 2))).values)) :=
  ⟨⟨by decide, by decide⟩,
    claim_C7 (Digest.new (List.replicate 5 (BFieldElement.mk 1)))
      (Digest.new (List.replicate 5 (BFieldElement.mk 2))) (by decide) (by decide)⟩

/-- Chunking a list whose length is a multiple of `RATE`: the number of
chunks, their concatenation, and their sizes. -/
theorem chunksOf_props : ∀ (n : Nat) (l : List BFieldElement), l.length = n →
    l.length % RATE = 0 →
    (chunksOf l).length = l.length / RATE ∧ (chunksOf l).flatten = l ∧
    ∀ blk ∈ chunksOf l, blk.length = RATE := by
  intro n
  induction n using Nat.strong_induction_on with
  | _ n ih =>
    intro l hlen hmod
    by_cases hnil : l.isEmpty
    · have hl : l = [] := List.isEmpty_iff.mp hnil
      subst hl
      rw [chunksOf]
      simp
    · have hcons : 1 ≤ l.length := by
        cases l
        · simp at hnil
        · simp
      have h10 : RATE ≤ l.length := by
        simp only [RATE] at hmod ⊢; omega
      have hdroplen : (l.drop RATE).length = l.length - RATE := by simp
      have hlt : (l.drop RATE).length < n := by
        rw [hdroplen]; simp only [RATE] at h10 ⊢; omega
      obtain ⟨ih1, ih2, ih3⟩ := ih (l.drop RATE).length hlt (l.drop RATE) rfl
        (by rw [hdroplen]; simp only [RATE] at hmod ⊢; omega)
      rw [chunksOf, if_neg (by simpa using hnil)]
      refine ⟨?_, ?_, ?_⟩
      · simp only [List.length_cons, ih1, hdroplen]
        simp only [RATE] at h10 hmod ⊢
        omega
      · rw [List.flatten_cons, ih2, List.take_append_drop]
      · intro blk hblk
        rcases List.mem_cons.mp hblk with h | h
        · subst h
          rw [List.length_take]
          simp only [RATE] at h10 ⊢
          omega
        · exact ih3 blk h

/-- The padded input is the input, then a single `ONE`, then zeros up to the
next multiple of `RATE`. -/
theorem padded_input_eq (input : List BFieldElement) :
    padded_input input
      = input ++ BFieldElement.one :: List.replicate
          (next_multiple_of (input.length + 1) RATE - (input.length + 1))
          BFieldElement.zero := by
  simp only [padded_input]
  set L := next_multiple_of (input.length + 1) RATE with hL
  have hLge : input.length + 1 ≤ L := by
    rw [hL]; unfold next_multiple_of; simp only [RATE]; omega
  rw [List.take_append_eq_append_take, List.take_of_length_le (by omega)]
  congr 1
  obtain ⟨k, hk⟩ : ∃ k, L - input.length = k + 1 := ⟨L - input.length - 1, by omega⟩
  rw [hk, List.take_succ_cons, List.take_replicate]
  rw [min_eq_left (by omega)]
  congr 2
  omega

/-- Claim C4: for every input sequence, `pad_and_absorb_all` absorbs exactly
`ceil((n+1)/RATE)` blocks of `RATE` elements each, in order (a left fold of
`absorb` over the chunks), and the concatenation of the absorbed blocks
equals the input followed by the constant `1` followed by as many `0`s as
needed to reach the next multiple of `RATE`; the padding is never empty. -/
theorem claim_C4 (s : List BFieldElement) (input : List BFieldElement) :
    pad_and_absorb_all s input = (chunksOf (padded_input input)).foldl Tip5.absorb s ∧
    (chunksOf (padded_input input)).length = (input.length + 1 + (RATE - 1)) / RATE ∧
    (∀ blk ∈ chunksOf (padded_input input), blk.length = RATE) ∧
    (chunksOf (padded_input input)).flatten
      = input ++ [BFieldElement.one]
        ++ List.replicate
            (next_multiple_of (input.length + 1) RATE - (input.length + 1))
            BFieldElement.zero ∧
    input.length < ((chunksOf (padded_input input)).flatten).length := by
  have hplen : (padded_input input).length = next_multiple_of (input.length + 1) RATE := by
    rw [padded_input_eq]
    simp only [List.length_append, List.length_cons, List.length_replicate]
    unfold next_multiple_of
    simp only [RATE]
    omega
  have hmod : (padded_input input).length % RATE = 0 := by
    rw [hplen]; unfold next_multiple_of; simp only [RATE]; omega
  obtain ⟨h1, h2, h3⟩ :=
    chunksOf_props (padded_input input).length (padded_input input) rfl hmod
  refine ⟨rfl, ?_, h3, ?_, ?_⟩
  · rw [h1, hplen]; unfold next_multiple_of; simp only [RATE]; omega
  · rw [h2, padded_input_eq, List.append_assoc, List.singleton_append]
  · rw [h2, hplen]
    unfold next_multiple_of
    simp only [RATE]
    omega

/-- The raw word of `split_and_lookup` is the byte-wise table substitution of
the raw word, reassembled little-endian. -/
theorem split_and_lookup_raw (x : BFieldElement) :
    (Tip5.split_and_lookup x).raw
      = ∑ j ∈ Finset.range 8,
          LOOKUP_TABLE.getD (x.raw / 2^(8*j) % 256) 0 * 2^(8*j) := by
  simp only [Tip5.split_and_lookup, BFieldElement.from_raw_bytes, BFieldElement.raw_bytes]
  rw [List.map_map]
  rw [show List.range 8 = [0, 1, 2, 3, 4, 5, 6, 7] from rfl]
  simp only [List.map_cons, List.map_nil, Function.comp_apply, List.foldr_cons, List.foldr_nil]
  rw [Finset.sum_range_succ, Finset.sum_range_succ, Finset.sum_range_succ,
    Finset.sum_range_succ, Finset.sum_range_succ, Finset.sum_range_succ,
    Finset.sum_range_succ, Finset.sum_range_succ, Finset.sum_range_zero]
  ring

/-- The seventh-power step of the S-box layer, on canonical values. -/
theorem pow7_value (x : BFieldElement) (hx : x.raw < 2^64) :
    (BFieldElement.mul x (BFieldElement.mul (BFieldElement.mul x x)
        (BFieldElement.mul (BFieldElement.mul x x) (BFieldElement.mul x x)))).value
      = x.value^7 % BFieldElement.P := by
  have hsq : (BFieldElement.mul x x).raw < 2^64 := BFieldElement.montyred_lt_two64 _
  have hqu : (BFieldElement.mul (BFieldElement.mul x x) (BFieldElement.mul x x)).raw < 2^64 :=
    BFieldElement.montyred_lt_two64 _
  have hsq7 : (BFieldElement.mul (BFieldElement.mul x x)
      (BFieldElement.mul (BFieldElement.mul x x) (BFieldElement.mul x x))).raw < 2^64 :=
    BFieldElement.montyred_lt_two64 _
  have hbig : (BFieldElement.mul x (BFieldElement.mul (BFieldElement.mul x x)
      (BFieldElement.mul (BFieldElement.mul x x) (BFieldElement.mul x x)))).raw < 2^64 :=
    BFieldElement.montyred_lt_two64 _
  apply BFieldElement.nat_eq_of_cast_eq
    (BFieldElement.value_lt _ hbig)
    (Nat.mod_lt _ (by decide))
  rw [ZMod.natCast_mod]
  push_cast
  rw [BFieldElement.mul_value_zmod x _ hx hsq7,
    BFieldElement.mul_value_zmod _ _ hsq hqu,
    BFieldElement.mul_value_zmod _ _ hsq hsq,
    BFieldElement.mul_value_zmod x x hx hx]
  ring

/-- `getD` through the S-box layer. -/
theorem sbox_layer_getD (s : List BFieldElement) (i : Nat) (hi : i < s.length) :
    (Tip5.sbox_layer s).getD i BFieldElement.zero
      = if i < NUM_SPLIT_AND_LOOKUP
        then Tip5.split_and_lookup (s.getD i BFieldElement.zero)
        else BFieldElement.mul (s.getD i BFieldElement.zero)
          (BFieldElement.mul
            (BFieldElement.mul (s.getD i BFieldElement.zero) (s.getD i BFieldElement.zero))
            (BFieldElement.mul
              (BFieldElement.mul (s.getD i BFieldElement.zero)
                (s.getD i BFieldElement.zero))
              (BFieldElement.mul (s.getD i BFieldElement.zero)
                (s.getD i BFieldElement.zero)))) := by
  simp only [Tip5.sbox_layer]
  rw [getD_mapIdx s _ i hi _ BFieldElement.zero]

/-- Claim C6: `sbox_layer` transforms each of the first 4 state words by
splitting its raw Montgomery word into 8 little-endian bytes, substituting
each byte through `LOOKUP_TABLE`, and reassembling the result bytes as the
new raw word (no renormalization); and transforms each of the remaining 12
state words `x` into the field power `x^7`. -/
theorem claim_C6 (s : List BFieldElement) (hlen : s.length = STATE_SIZE)
    (hb : ∀ x ∈ s, x.raw < 2^64) (i : Nat) (hi : i < STATE_SIZE) :
    (Tip5.sbox_layer s).length = STATE_SIZE ∧
    (i < NUM_SPLIT_AND_LOOKUP →
      ((Tip5.sbox_layer s).getD i BFieldElement.zero).raw
        = ∑ j ∈ Finset.range 8,
            LOOKUP_TABLE.getD ((s.getD i BFieldElement.zero).raw / 2^(8*j) % 256) 0
              * 2^(8*j)) ∧
    (NUM_SPLIT_AND_LOOKUP ≤ i →
      ((Tip5.sbox_layer s).getD i BFieldElement.zero).value
        = ((s.getD i BFieldElement.zero).value)^7 % BFieldElement.P) := by
  have hilen : i < s.length := by rw [hlen]; exact hi
  have hx : (s.getD i BFieldElement.zero).raw < 2^64 :=
    hb _ (by rw [List.getD_eq_getElem _ _ hilen]; exact List.getElem_mem _)
  refine ⟨?_, ?_, ?_⟩
  · simp only [Tip5.sbox_layer, List.length_mapIdx, hlen]
  · intro h4
    rw [sbox_layer_getD s i hilen, if_pos h4]
    exact split_and_lookup_raw _
  · intro h4
    rw [sbox_layer_getD s i hilen, if_neg (by omega)]
    exact pow7_value _ hx

theorem claim_C6_witness :
    ((List.replicate 16 (BFieldElement.mk 7)).length = STATE_SIZE ∧
      (∀ x ∈ List.replicate 16 (BFieldElement.mk 7), x.raw < 2^64) ∧ 0 < STATE_SIZE) ∧
    ((Tip5.sbox_layer (List.replicate 16 (BFieldElement.mk 7))).length = STATE_SIZE ∧
      (0 < NUM_SPLIT_AND_LOOKUP →
        ((Tip5.sbox_layer (List.replicate 16 (BFieldElement.mk 7))).getD 0
            BFieldElement.zero).raw
          = ∑ j ∈ Finset.range 8,
              LOOKUP_TABLE.getD
                (((List.replicate 16 (BFieldElement.mk 7)).getD 0
                    BFieldElement.zero).raw / 2^(8*j) % 256) 0 * 2^(8*j)) ∧
      (NUM_SPLIT_AND_LOOKUP ≤ 0 →
        ((Tip5.sbox_layer (List.replicate 16 (BFieldElement.mk 7))).getD 0
            BFieldElement.zero).value
          = (((List.replicate 16 (BFieldElement.mk 7)).getD 0
              BFieldElement.zero).value)^7 % BFieldElement.P)) :=
  ⟨⟨by decide, by decide, by decide⟩,
    claim_C6 (List.replicate 16 (BFieldElement.mk 7)) (by decide) (by decide) 0 (by decide)⟩

/-- Every entry of the MDS defining column is at most `61402`. -/
theorem mds_entry_le (k : Nat) : MDS_MATRIX_FIRST_COLUMN.getD k 0 ≤ 61402 := by
  by_cases hk : k < 16
  · interval_cases k <;> decide
  · rw [List.getD_eq_getElem?_getD, List.getElem?_eq_none (by simp [MDS_MATRIX_FIRST_COLUMN]; omega)]
    simp

/-- Bound on the circulant dot product for 32-bit inputs. -/
theorem dotp_le (input : List Nat) (hin : ∀ c, input.getD c 0 < 2^32) (r : Nat) :
    (∑ c ∈ Finset.range STATE_SIZE,
        MDS_MATRIX_FIRST_COLUMN.getD ((r + STATE_SIZE - c) % STATE_SIZE) 0
          * input.getD c 0)
      ≤ 16 * (61402 * (2^32 - 1)) := by
  calc (∑ c ∈ Finset.range STATE_SIZE,
        MDS_MATRIX_FIRST_COLUMN.getD ((r + STATE_SIZE - c) % STATE_SIZE) 0
          * input.getD c 0)
      ≤ ∑ _c ∈ Finset.range STATE_SIZE, 61402 * (2^32 - 1) := by
        apply Finset.sum_le_sum
        intro c hc
        apply Nat.mul_le_mul (mds_entry_le _)
        have := hin c
        omega
    _ = 16 * (61402 * (2^32 - 1)) := by
        rw [Finset.sum_const, Finset.card_range]
        simp only [STATE_SIZE, smul_eq_mul]

theorem map_lo_lt (s : List BFieldElement) (c : Nat) :
    (s.map fun x => x.raw % 2^32).getD c 0 < 2^32 := by
  by_cases hc : c < s.length
  · rw [getD_map_lt s _ c hc 0 BFieldElement.zero]
    exact Nat.mod_lt _ (by norm_num)
  · rw [List.getD_eq_getElem?_getD, List.getElem?_eq_none (by rw [List.length_map]; omega)]
    norm_num

theorem map_hi_lt (s : List BFieldElement) (c : Nat) :
    (s.map fun x => x.raw / 2^32 % 2^32).getD c 0 < 2^32 := by
  by_cases hc : c < s.length
  · rw [getD_map_lt s _ c hc 0 BFieldElement.zero]
    exact Nat.mod_lt _ (by norm_num)
  · rw [List.getD_eq_getElem?_getD, List.getElem?_eq_none (by rw [List.length_map]; omega)]
    norm_num

theorem generated_function_getD (input : List Nat) (r : Nat) (hr : r < STATE_SIZE) :
    (generated_function input).getD r 0
      = 16 * ∑ c ∈ Finset.range STATE_SIZE,
          MDS_MATRIX_FIRST_COLUMN.getD ((r + STATE_SIZE - c) % STATE_SIZE) 0
            * input.getD c 0 := by
  simp only [generated_function]
  rw [getD_map_range STATE_SIZE _ r hr]

/-- `Tip5.mds_fold` keeps the value below `2^64` and preserves it modulo `P`. -/
theorem Tip5.mds_fold_spec (S : Nat) (hS : S < 2^96) :
    Tip5.mds_fold S < 2^64 ∧
    ((Tip5.mds_fold S : Nat) : ZMod BFieldElement.P) = (S : ZMod BFieldElement.P) := by
  have hP0 : ((18446744069414584321 : Nat) : ZMod BFieldElement.P) = 0 :=
    ZMod.natCast_self BFieldElement.P
  push_cast at hP0
  have hsplit : ((2^64 * (S / 2^64) + S % 2^64 : Nat) : ZMod BFieldElement.P)
      = (S : ZMod BFieldElement.P) := by rw [Nat.div_add_mod]
  push_cast at hsplit
  simp only [Tip5.mds_fold, wrap64]
  have h1 : S / 2^64 * 4294967295 % 2^64 = S / 2^64 * 4294967295 := by omega
  rw [h1]
  by_cases hov : 2^64 ≤ S % 2^64 + S / 2^64 * 4294967295
  · rw [if_pos hov]
    constructor
    · omega
    · have heq : (S % 2^64 + S / 2^64 * 4294967295) % 2^64 + 4294967295
          = S % 2^64 + S / 2^64 * 4294967295 + 4294967295 - 2^64 := by omega
      rw [heq]
      rw [Nat.cast_sub (by omega)]
      push_cast
      linear_combination hsplit - ((S / 2^64 : Nat) : ZMod BFieldElement.P) * hP0 - hP0
  · rw [if_neg hov]
    have heq : (S % 2^64 + S / 2^64 * 4294967295) % 2^64
        = S % 2^64 + S / 2^64 * 4294967295 := by omega
    rw [heq]
    constructor
    · omega
    · push_cast
      linear_combination hsplit - ((S / 2^64 : Nat) : ZMod BFieldElement.P) * hP0

/-- Recombining the two 32-bit half dot products gives the dot product of the
full raw words. -/
theorem conv_recombine (s : List BFieldElement) (hlen : s.length = STATE_SIZE)
    (hb : ∀ x ∈ s, x.raw < 2^64) (r : Nat) :
    (∑ c ∈ Finset.range STATE_SIZE,
        MDS_MATRIX_FIRST_COLUMN.getD ((r + STATE_SIZE - c) % STATE_SIZE) 0
          * (s.map fun x => x.raw % 2^32).getD c 0)
      + 2^32 * (∑ c ∈ Finset.range STATE_SIZE,
          MDS_MATRIX_FIRST_COLUMN.getD ((r + STATE_SIZE - c) % STATE_SIZE) 0
            * (s.map fun x => x.raw / 2^32 % 2^32).getD c 0)
      = ∑ c ∈ Finset.range STATE_SIZE,
          MDS_MATRIX_FIRST_COLUMN.getD ((r + STATE_SIZE - c) % STATE_SIZE) 0
            * (s.getD c BFieldElement.zero).raw := by
  rw [Finset.mul_sum, ← Finset.sum_add_distrib]
  apply Finset.sum_congr rfl
  intro c hc
  have hc16 : c < s.length := by rw [hlen]; exact Finset.mem_range.mp hc
  rw [getD_map_lt s _ c hc16 0 BFieldElement.zero,
    getD_map_lt s _ c hc16 0 BFieldElement.zero]
  have hraw : (s.getD c BFieldElement.zero).raw < 2^64 :=
    hb _ (by rw [List.getD_eq_getElem _ _ hc16]; exact List.getElem_mem _)
  have hdec : (s.getD c BFieldElement.zero).raw % 2^32
      + 2^32 * ((s.getD c BFieldElement.zero).raw / 2^32 % 2^32)
      = (s.getD c BFieldElement.zero).raw := by omega
  conv_rhs => rw [← hdec]
  ring

/-- Casting the raw-word dot product to `ZMod P` turns it into the
canonical-value dot product times `R`. -/
theorem conv_cast (s : List BFieldElement) (hlen : s.length = STATE_SIZE)
    (hb : ∀ x ∈ s, x.raw < 2^64) (r : Nat) :
    ((∑ c ∈ Finset.range STATE_SIZE,
        MDS_MATRIX_FIRST_COLUMN.getD ((r + STATE_SIZE - c) % STATE_SIZE) 0
          * (s.getD c BFieldElement.zero).raw : Nat) : ZMod BFieldElement.P)
      = ((∑ c ∈ Finset.range STATE_SIZE,
          MDS_MATRIX_FIRST_COLUMN.getD ((r + STATE_SIZE - c) % STATE_SIZE) 0
            * (s.getD c BFieldElement.zero).value : Nat) : ZMod BFieldElement.P)
          * 2^64 := by
  push_cast
  rw [Finset.sum_mul]
  apply Finset.sum_congr rfl
  intro c hc
  have hc16 : c < s.length := by rw [hlen]; exact Finset.mem_range.mp hc
  have hraw : (s.getD c BFieldElement.zero).raw < 2^64 :=
    hb _ (by rw [List.getD_eq_getElem _ _ hc16]; exact List.getElem_mem _)
  rw [← BFieldElement.value_zmod _ hraw]
  ring

/-- Claim C5: for every 16-element state (of `u64` raw words), the optimized
diffusion routine `mds_generated` produces exactly the direct circulant
matrix-vector product over the field:
`new_state[r].value = (Σ_c MDS_MATRIX_FIRST_COLUMN[(r − c) mod 16] · old_state[c].value) mod p`
for every row `r` — the split-half fast implementation agrees with the
direct O(n²) field computation on every input. -/
theorem claim_C5 (s : List BFieldElement) (hlen : s.length = STATE_SIZE)
    (hb : ∀ x ∈ s, x.raw < 2^64) (r : Nat) (hr : r < STATE_SIZE) :
    (Tip5.mds_generated s).length = STATE_SIZE ∧
    ((Tip5.mds_generated s).getD r BFieldElement.zero).value
      = (∑ c ∈ Finset.range STATE_SIZE,
          MDS_MATRIX_FIRST_COLUMN.getD ((r + STATE_SIZE - c) % STATE_SIZE) 0
            * (s.getD c BFieldElement.zero).value) % BFieldElement.P := by
  constructor
  · simp [Tip5.mds_generated]
  have hAle := dotp_le _ (map_lo_lt s) r
  have hBle := dotp_le _ (map_hi_lt s) r
  set A := ∑ c ∈ Finset.range STATE_SIZE,
      MDS_MATRIX_FIRST_COLUMN.getD ((r + STATE_SIZE - c) % STATE_SIZE) 0
        * (s.map fun x => x.raw % 2^32).getD c 0 with hA
  set B := ∑ c ∈ Finset.range STATE_SIZE,
      MDS_MATRIX_FIRST_COLUMN.getD ((r + STATE_SIZE - c) % STATE_SIZE) 0
        * (s.map fun x => x.raw / 2^32 % 2^32).getD c 0 with hB
  have hgetD : (Tip5.mds_generated s).getD r BFieldElement.zero
      = BFieldElement.from_raw_u64 (Tip5.mds_fold (A + B * 2^32)) := by
    simp only [Tip5.mds_generated]
    rw [getD_map_range STATE_SIZE _ r hr]
    rw [generated_function_getD _ r hr, generated_function_getD _ r hr]
    rw [← hA, ← hB]
    have harg : 16 * A / 2^4 + 16 * B * 2^28 = A + B * 2^32 := by omega
    rw [harg]
  rw [hgetD]
  have hS : A + B * 2^32 < 2^96 := by omega
  obtain ⟨hfold_lt, hfold_cast⟩ := Tip5.mds_fold_spec (A + B * 2^32) hS
  have hlt2 : (BFieldElement.from_raw_u64 (Tip5.mds_fold (A + B * 2^32))).raw < 2^64 := hfold_lt
  apply BFieldElement.value_eq_mod _ _ hlt2
  show ((Tip5.mds_fold (A + B * 2^32) : Nat) : ZMod BFieldElement.P) = _
  rw [hfold_cast]
  rw [show A + B * 2^32 = A + 2^32 * B from by ring, hA, hB,
    conv_recombine s hlen hb r]
  exact conv_cast s hlen hb r

theorem claim_C5_witness :
    ((List.replicate 16 (BFieldElement.mk 9)).length = STATE_SIZE ∧
      (∀ x ∈ List.replicate 16 (BFieldElement.mk 9), x.raw < 2^64) ∧ 1 < STATE_SIZE) ∧
    ((Tip5.mds_generated (List.replicate 16 (BFieldElement.mk 9))).length = STATE_SIZE ∧
      ((Tip5.mds_generated (List.replicate 16 (BFieldElement.mk 9))).getD 1
          BFieldElement.zero).value
        = (∑ c ∈ Finset.range STATE_SIZE,
            MDS_MATRIX_FIRST_COLUMN.getD ((1 + STATE_SIZE - c) % STATE_SIZE) 0
              * ((List.replicate 16 (BFieldElement.mk 9)).getD c
                  BFieldElement.zero).value) % BFieldElement.P) :=
  ⟨⟨by decide, by decide, by decide⟩,
    claim_C5 (List.replicate 16 (BFieldElement.mk 9)) (by decide) (by decide) 1 (by decide)⟩
